import Mathlib

set_option maxRecDepth 100000

/-!
Verification of the subset-sum search program (`find-amount`).

The program reads a list of `f64` numbers, runs a pruned depth-first
backtracking search (`backtrack_first`) for the first subsequence summing
exactly to a target, and writes the result as one CSV column.

Modelling choices:
* The `f64` operations used by the search (`==`, `>`, `f64::abs`, `+`, the
  `0.0` start of `path.iter().sum()`) are kept abstract in a `FloatOps`
  structure.  All structural theorems about the search are proved for every
  interpretation of these operations, hence in particular for IEEE `f64`.
* `ratOps` instantiates the operations with exact rationals: on the small
  integer inputs appearing in the specification's examples, `f64` arithmetic
  is exact, so the rational model computes exactly what the program computes.
* `nanOps` extends the rationals with an absorbing element (`Option.none`)
  whose comparisons are all `false`, modelling the `f64` NaN behaviour used
  by the NaN claim.
-/

/-- The floating-point operations used by the search, kept abstract.
`beq` is the `==` test on `f64`, `bgt x y` is `x > y`, `abs` is `f64::abs`,
and `add`/`zero` are the fold computing `path.iter().sum::<f64>()`. -/
structure FloatOps (α : Type) where
  zero : α
  add : α → α → α
  beq : α → α → Bool
  bgt : α → α → Bool
  abs : α → α

/-- Model of `path.iter().sum::<f64>()`: a left fold of `add` from `zero`. -/
def sumList {α : Type} (F : FloatOps α) (l : List α) : α :=
  l.foldl F.add F.zero

/-- Exact-rational instance of the float operations. -/
def ratOps : FloatOps ℚ :=
  ⟨0, fun a b => a + b, fun a b => decide (a = b), fun a b => decide (b < a),
    fun a => |a|⟩

/-- Rationals extended with a NaN element (`none`): every comparison with
`none` is `false`, arithmetic with `none` yields `none`, `abs none = none`,
mirroring IEEE NaN. -/
def nanOps : FloatOps (Option ℚ) :=
  ⟨some 0,
    fun a b => match a, b with
      | some x, some y => some (x + y)
      | _, _ => none,
    fun a b => match a, b with
      | some x, some y => decide (x = y)
      | _, _ => false,
    fun a b => match a, b with
      | some x, some y => decide (y < x)
      | _, _ => false,
    fun a => a.map fun x => |x|⟩

mutual

/-- Embedding of the Rust `backtrack_first`.  The `&mut Option<Vec<f64>>`
out-parameter `result` is threaded explicitly: the returned value is the
final contents of `result`.  The body mirrors the source line by line:
early return when a result is already recorded; record `path` when its sum
equals `target`; abandon the branch when the sum exceeds `target.abs()`
(leaving `result` unchanged); otherwise run the loop over `i` in
`start..nums.len()`. -/
def backtrack_first {α : Type} (F : FloatOps α) (nums : List α) (target : α)
    (start : Nat) (path : List α) (result : Option (List α)) :
    Option (List α) :=
  if result.isSome then result
  else if F.beq (sumList F path) target then some path
  else if F.bgt (sumList F path) (F.abs target) then result
  else btLoop F nums target start path result
termination_by (nums.length + 1 - start, 1)

/-- The `for i in start..nums.len()` loop of `backtrack_first`:
push `nums[i]`, recurse with `start = i + 1` (the pop is implicit in the
functional reading), and stop iterating once a result is recorded. -/
def btLoop {α : Type} (F : FloatOps α) (nums : List α) (target : α)
    (i : Nat) (path : List α) (result : Option (List α)) :
    Option (List α) :=
  if h : i < nums.length then
    let r := backtrack_first F nums target (i + 1) (path ++ [nums[i]]) result
    if r.isSome then r
    else btLoop F nums target (i + 1) path r
  else result
termination_by (nums.length + 1 - i, 0)

end

/-- Embedding of the Rust `find_first_combination`: start the backtracking
search with an empty path and no recorded result. -/
def find_first_combination {α : Type} (F : FloatOps α) (nums : List α)
    (target : α) : Option (List α) :=
  backtrack_first F nums target 0 [] none

/-- Structural restatement of `backtrack_first` used for reasoning and for
concrete evaluation: the cursor `start` is replaced by the remaining suffix
`rest = nums.drop start`, and the sibling loop becomes the `none` branch of
the match.  `backtrack_first_eq_btIE` proves it computes the same result. -/
def btIE {α : Type} (F : FloatOps α) (target : α) :
    List α → List α → Option (List α)
  | path, [] =>
    if F.beq (sumList F path) target then some path
    else if F.bgt (sumList F path) (F.abs target) then none
    else none
  | path, x :: xs =>
    if F.beq (sumList F path) target then some path
    else if F.bgt (sumList F path) (F.abs target) then none
    else
      match btIE F target (path ++ [x]) xs with
      | some r => some r
      | none => btIE F target path xs

/-- All subsequences of a list, listed in the visit order of the
index-ordered, shallowest-first depth-first enumeration described by the
specification: a node's own path is visited first, then the subtrees
obtained by appending each later element, in increasing index order. -/
def dfsSubseqs {α : Type} : List α → List (List α)
  | [] => [[]]
  | x :: xs =>
    [] :: ((dfsSubseqs xs).map (fun ext => x :: ext) ++ (dfsSubseqs xs).tail)

/-- Predicate: `C` is the subsequence of `nums` selected at the strictly increasing
index sequence `idxs`. -/
def SelectedAt {α : Type} (nums : List α) (idxs : List Nat) (C : List α) :
    Prop :=
  List.Pairwise (fun i j => i < j) idxs ∧
    List.Forall₂ (fun i x => nums[i]? = some x) idxs C

/-- The match test of the search under the exact-rational operations, as a
predicate on the extension of the current path: does the whole combination
`path ++ ext` sum exactly to the target? -/
def sumMatches (t : ℚ) (path ext : List ℚ) : Bool :=
  decide (sumList ratOps (path ++ ext) = t)

/-- Depth-fueled variant of the search: `fuel` bounds how many nested
recursive `backtrack_first` frames may still be opened, and `none` reports
fuel exhaustion.  The sibling loop (the `some Option.none` branch of the
inner match) continues at the same depth, exactly as the `for` loop in the
source does. -/
def btIEFuel {α : Type} (F : FloatOps α) (t : α) :
    Nat → List α → List α → Option (Option (List α))
  | 0, _, _ => none
  | fuel + 1, path, rest =>
    if F.beq (sumList F path) t then some (some path)
    else if F.bgt (sumList F path) (F.abs t) then some none
    else
      match rest with
      | [] => some none
      | x :: xs =>
        match btIEFuel F t fuel (path ++ [x]) xs with
        | none => none
        | some (some r) => some (some r)
        | some none => btIEFuel F t (fuel + 1) path xs

/-- The first whitespace-delimited token of a line
(`line.split_whitespace().collect::<Vec<_>>().get(0)` in the source):
drop leading whitespace, then take until the next whitespace; `none` when
the line holds only whitespace. -/
def firstToken (line : String) : Option String :=
  let tok := (line.toList.dropWhile Char.isWhitespace).takeWhile
    fun c => !c.isWhitespace
  if tok.isEmpty then none else some (String.mk tok)

/-- Model of `f64::from_str` restricted to unsigned decimal-integer tokens:
on the tokens of the specification's reader example (`10`, `apples`, `abc`,
`5`) its verdicts coincide with Rust's, and those tokens' values are exact
in `f64`.  The reader theorems quantify over an arbitrary parse function;
this instance is only used for the concrete example. -/
def parseIntQ (s : String) : Option ℚ :=
  let cs := s.toList
  if !cs.isEmpty && cs.all Char.isDigit then
    some ((cs.foldl (fun acc c => 10 * acc + (c.toNat - 48)) 0 : ℕ) : ℚ)
  else none

/-- The line loop of `read_numbers_from_file`: skip the first line while
`skip_header` is set, then push the parse of each line's first token onto
`numbers` when it succeeds. -/
def readLoop {β : Type} (parse : String → Option β) :
    Bool → List β → List String → List β
  | _, numbers, [] => numbers
  | skip_header, numbers, line :: rest =>
    if skip_header then readLoop parse false numbers rest
    else
      match (firstToken line).bind parse with
      | some number => readLoop parse skip_header (numbers ++ [number]) rest
      | none => readLoop parse skip_header numbers rest

/-- Embedding of the Rust `read_numbers_from_file`.  The file is modelled by
its list of lines (the `BufReader::lines` iteration; I/O failure is outside
this model), and `f64::from_str` by an arbitrary parse function. -/
def read_numbers_from_file {β : Type} (parse : String → Option β)
    (lines : List String) : List β :=
  readLoop parse true [] lines

/-- Embedding of the Rust `write_combinations_to_csv`.  The emitted CSV file
is modelled as its list of records (rows of fields); `to_string` on `f64` is
modelled by an arbitrary formatting function.  As in the source, the number
of rows is taken from the length of the *first* combination (the variable
the source calls `max_length`), and a combination shorter than that is
padded with empty fields. -/
def write_combinations_to_csv {α : Type} (fmt : α → String)
    (combinations : List (List α)) : List (List String) :=
  match combinations.head? with
  | none => []
  | some combination =>
    let max_length := combination.length
    (List.range max_length).map fun i =>
      combinations.map fun comb =>
        match comb[i]? with
        | some v => fmt v
        | none => ""

/-- One-step unfolding of `btIE` that does not require the remaining suffix
to be in constructor form. -/
theorem btIE_unfold {α : Type} (F : FloatOps α) (t : α) (path rest : List α) :
    btIE F t path rest =
      if F.beq (sumList F path) t then some path
      else if F.bgt (sumList F path) (F.abs t) then none
      else
        match rest with
        | [] => none
        | x :: xs =>
          match btIE F t (path ++ [x]) xs with
          | some r => some r
          | none => btIE F t path xs := by
  cases rest <;> rfl

/-- Once the cursor has run past the end of the sequence the loop leaves the
(absent) result unchanged. -/
theorem btLoop_stop {α : Type} (F : FloatOps α) (nums : List α) (t : α)
    (i : Nat) (path : List α) (hge : nums.length ≤ i) :
    btLoop F nums t i path none = none := by
  rw [btLoop]
  rw [dif_neg (Nat.not_lt.mpr hge)]

/-- The function `backtrack_first` agrees with `btIE` as soon as its sibling loop does. -/
theorem backtrack_step {α : Type} (F : FloatOps α) (nums : List α) (t : α)
    (i : Nat) (path : List α)
    (hl : F.beq (sumList F path) t = false →
      F.bgt (sumList F path) (F.abs t) = false →
      btLoop F nums t i path none = btIE F t path (nums.drop i)) :
    backtrack_first F nums t i path none = btIE F t path (nums.drop i) := by
  rw [backtrack_first]
  cases hbeq : F.beq (sumList F path) t with
  | true =>
    rw [btIE_unfold]
    simp [hbeq]
  | false =>
    cases hbgt : F.bgt (sumList F path) (F.abs t) with
    | true =>
      rw [btIE_unfold]
      simp [hbeq, hbgt]
    | false =>
      simp only [hbeq, hbgt, Option.isSome_none, Bool.false_eq_true, if_false]
      exact hl hbeq hbgt

/-- Joint induction: the loop from cursor `i` and the search from cursor `i`
both compute `btIE` on the remaining suffix `nums.drop i`. -/
theorem bridge_aux {α : Type} (F : FloatOps α) (nums : List α) (t : α) :
    ∀ k i path, nums.length - i ≤ k →
      ((F.beq (sumList F path) t = false →
          F.bgt (sumList F path) (F.abs t) = false →
          btLoop F nums t i path none = btIE F t path (nums.drop i)) ∧
        backtrack_first F nums t i path none = btIE F t path (nums.drop i)) := by
  intro k
  induction k with
  | zero =>
    intro i path hk
    have hge : nums.length ≤ i := by omega
    have hdrop : nums.drop i = [] := List.drop_eq_nil_of_le hge
    have hl : F.beq (sumList F path) t = false →
        F.bgt (sumList F path) (F.abs t) = false →
        btLoop F nums t i path none = btIE F t path (nums.drop i) := by
      intro h1 h2
      rw [btLoop_stop F nums t i path hge, hdrop, btIE_unfold]
      simp [h1, h2]
    exact ⟨hl, backtrack_step F nums t i path hl⟩
  | succ k ih =>
    intro i path hk
    by_cases hlt : i < nums.length
    · have hk' : nums.length - (i + 1) ≤ k := by omega
      have hdrop : nums.drop i = nums[i] :: nums.drop (i + 1) :=
        List.drop_eq_getElem_cons hlt
      have hl : F.beq (sumList F path) t = false →
          F.bgt (sumList F path) (F.abs t) = false →
          btLoop F nums t i path none = btIE F t path (nums.drop i) := by
        intro h1 h2
        have hback := (ih (i + 1) (path ++ [nums[i]]) hk').2
        rw [btLoop]
        rw [dif_pos hlt, hdrop, btIE_unfold]
        simp only [h1, h2, Bool.false_eq_true, if_false]
        rw [hback]
        cases hres : btIE F t (path ++ [nums[i]]) (nums.drop (i + 1)) with
        | some r => simp
        | none =>
          simp only [Option.isSome_none, Bool.false_eq_true, if_false]
          exact (ih (i + 1) path hk').1 h1 h2
      exact ⟨hl, backtrack_step F nums t i path hl⟩
    · have hge : nums.length ≤ i := by omega
      have hdrop : nums.drop i = [] := List.drop_eq_nil_of_le hge
      have hl : F.beq (sumList F path) t = false →
          F.bgt (sumList F path) (F.abs t) = false →
          btLoop F nums t i path none = btIE F t path (nums.drop i) := by
        intro h1 h2
        rw [btLoop_stop F nums t i path hge, hdrop, btIE_unfold]
        simp [h1, h2]
      exact ⟨hl, backtrack_step F nums t i path hl⟩

/-- The faithful embedding and its structural restatement agree. -/
theorem backtrack_first_eq_btIE {α : Type} (F : FloatOps α) (nums : List α)
    (t : α) (start : Nat) (path : List α) :
    backtrack_first F nums t start path none = btIE F t path (nums.drop start) :=
  (bridge_aux F nums t (nums.length - start) start path (le_refl _)).2

/-- Unfolding: `find_first_combination` is `btIE` started from the empty path. -/
theorem find_first_combination_eq_btIE {α : Type} (F : FloatOps α)
    (nums : List α) (t : α) :
    find_first_combination F nums t = btIE F t [] nums := by
  rw [find_first_combination, backtrack_first_eq_btIE, List.drop_zero]

/-- Folding rational addition from `z` adds the list sum to `z`. -/
theorem foldl_add_eq (l : List ℚ) : ∀ z : ℚ,
    l.foldl (fun a b => a + b) z = z + l.sum := by
  induction l with
  | nil => intro z; simp
  | cons a l ih => intro z; simp [List.sum_cons, ih, add_assoc]

/-- Under the exact-rational operations, `sumList` is the rational sum. -/
theorem sumList_ratOps (l : List ℚ) : sumList ratOps l = l.sum := by
  show l.foldl (fun a b => a + b) 0 = l.sum
  rw [foldl_add_eq, zero_add]

/-- Soundness of the structural search: a returned combination extends the
current path by a subsequence of the remaining suffix, and its sum passes
the equality test against the target. -/
theorem btIE_some {α : Type} (F : FloatOps α) (t : α) :
    ∀ rest path C, btIE F t path rest = some C →
      F.beq (sumList F C) t = true ∧
        ∃ ext, C = path ++ ext ∧ ext.Sublist rest := by
  intro rest
  induction rest with
  | nil =>
    intro path C h
    rw [btIE] at h
    cases hbeq : F.beq (sumList F path) t with
    | true =>
      rw [if_pos hbeq] at h
      obtain rfl : path = C := Option.some.inj h
      exact ⟨hbeq, [], by simp, List.nil_sublist _⟩
    | false =>
      rw [if_neg (by simp [hbeq])] at h
      split at h <;> exact absurd h (by simp)
  | cons x xs ih =>
    intro path C h
    rw [btIE] at h
    cases hbeq : F.beq (sumList F path) t with
    | true =>
      rw [if_pos hbeq] at h
      obtain rfl : path = C := Option.some.inj h
      exact ⟨hbeq, [], by simp, List.nil_sublist _⟩
    | false =>
      rw [if_neg (by simp [hbeq])] at h
      cases hbgt : F.bgt (sumList F path) (F.abs t) with
      | true => rw [if_pos hbgt] at h; exact absurd h (by simp)
      | false =>
        rw [if_neg (by simp [hbgt])] at h
        cases hm : btIE F t (path ++ [x]) xs with
        | some r =>
          rw [hm] at h
          obtain rfl : r = C := Option.some.inj h
          obtain ⟨hb, ext, hC, hsub⟩ := ih (path ++ [x]) _ hm
          refine ⟨hb, x :: ext, ?_, List.Sublist.cons₂ x hsub⟩
          rw [hC, List.append_assoc]
          rfl
        | none =>
          rw [hm] at h
          obtain ⟨hb, ext, hC, hsub⟩ := ih path C h
          exact ⟨hb, ext, hC, List.Sublist.cons x hsub⟩

/-- Every subsequence is selected at some strictly increasing index list. -/
theorem sublist_exists_selectedAt {α : Type} {C l : List α}
    (h : C.Sublist l) : ∃ idxs, SelectedAt l idxs C := by
  induction h with
  | slnil => exact ⟨[], List.Pairwise.nil, List.Forall₂.nil⟩
  | cons a h ih =>
    obtain ⟨idxs, hp, hf⟩ := ih
    refine ⟨idxs.map (fun i => i + 1), ?_, ?_⟩
    · rw [List.pairwise_map]
      exact hp.imp (by omega)
    · rw [List.forall₂_map_left_iff]
      exact hf.imp fun i x hx => by simpa using hx
  | cons₂ a h ih =>
    obtain ⟨idxs, hp, hf⟩ := ih
    refine ⟨0 :: idxs.map (fun i => i + 1), ?_, ?_⟩
    · rw [List.pairwise_cons]
      constructor
      · intro j hj
        obtain ⟨i, _, rfl⟩ := List.mem_map.mp hj
        omega
      · rw [List.pairwise_map]
        exact hp.imp (by omega)
    · refine List.Forall₂.cons (by simp) ?_
      rw [List.forall₂_map_left_iff]
      exact hf.imp fun i x hx => by simpa using hx

/-- Shifting a selection out of a `cons`: indices that are all positive can
be shifted down by one and select from the tail. -/
theorem forall2_shift {α : Type} (a : α) (l : List α) :
    ∀ idxs (C : List α), (∀ j ∈ idxs, 1 ≤ j) →
      List.Forall₂ (fun i x => (a :: l)[i]? = some x) idxs C →
      List.Forall₂ (fun i x => l[i]? = some x)
        (idxs.map (fun i => i - 1)) C := by
  intro idxs
  induction idxs with
  | nil => intro C hge hf; cases hf; exact List.Forall₂.nil
  | cons j js ih =>
    intro C hge hf
    cases hf with
    | cons hR hF =>
      refine List.Forall₂.cons ?_ (ih _ (fun k hk => hge k (by simp [hk])) hF)
      obtain ⟨j', rfl⟩ : ∃ j', j = j' + 1 :=
        ⟨j - 1, by have := hge j (by simp); omega⟩
      simpa using hR

/-- Companion to `forall2_shift` for the increasing-index invariant. -/
theorem pairwise_shift (idxs : List Nat) (hge : ∀ j ∈ idxs, 1 ≤ j)
    (hp : List.Pairwise (fun i j => i < j) idxs) :
    List.Pairwise (fun i j => i < j) (idxs.map (fun i => i - 1)) := by
  rw [List.pairwise_map]
  refine hp.imp_of_mem ?_
  intro a b ha hb hab
  have h1 := hge a ha
  have h2 := hge b hb
  omega

/-- A selection at strictly increasing indices is a subsequence. -/
theorem selectedAt_sublist {α : Type} :
    ∀ (nums : List α) idxs (C : List α), SelectedAt nums idxs C →
      C.Sublist nums := by
  intro nums
  induction nums with
  | nil =>
    intro idxs C h
    cases h.2 with
    | nil => exact List.nil_sublist _
    | cons hR _ => simp at hR
  | cons a nums ih =>
    intro idxs C h
    obtain ⟨hp, hf⟩ := h
    cases hf with
    | nil => exact List.nil_sublist _
    | cons hR hF =>
      rename_i j x js C'
      cases j with
      | zero =>
        obtain rfl : a = x := by simpa using hR
        have hcons := List.pairwise_cons.mp hp
        have hge : ∀ k ∈ js, 1 ≤ k := fun k hk => by
          have := hcons.1 k hk; omega
        exact List.Sublist.cons₂ a
          (ih _ C' ⟨pairwise_shift js hge hcons.2, forall2_shift a nums js C' hge hF⟩)
      | succ j' =>
        have hge : ∀ k ∈ (j' + 1) :: js, 1 ≤ k := by
          intro k hk
          rcases List.mem_cons.mp hk with rfl | hk2
          · omega
          · have := (List.pairwise_cons.mp hp).1 k hk2; omega
        exact List.Sublist.cons a
          (ih _ _ ⟨pairwise_shift _ hge hp,
            forall2_shift a nums _ _ hge (List.Forall₂.cons hR hF)⟩)

/-- The zero of the rational instance. -/
theorem ratOps_zero : ratOps.zero = 0 := rfl

/-- The equality test of the rational instance. -/
theorem ratOps_beq (a b : ℚ) : ratOps.beq a b = decide (a = b) := rfl

/-- The strict-greater test of the rational instance. -/
theorem ratOps_bgt (a b : ℚ) : ratOps.bgt a b = decide (b < a) := rfl

/-- The absolute value of the rational instance. -/
theorem ratOps_abs (a : ℚ) : ratOps.abs a = |a| := rfl

/-- The DFS enumeration always visits the empty combination first. -/
theorem dfsSubseqs_head {α : Type} (l : List α) :
    dfsSubseqs l = [] :: (dfsSubseqs l).tail := by
  cases l <;> rfl

/-- Everything the DFS enumeration visits is a subsequence. -/
theorem mem_dfsSubseqs_sublist {α : Type} :
    ∀ (l C : List α), C ∈ dfsSubseqs l → C.Sublist l := by
  intro l
  induction l with
  | nil =>
    intro C h
    rw [dfsSubseqs] at h
    obtain rfl : C = [] := by simpa using h
    exact List.nil_sublist _
  | cons x xs ih =>
    intro C h
    rw [dfsSubseqs] at h
    rcases List.mem_cons.mp h with rfl | h2
    · exact List.nil_sublist _
    · rcases List.mem_append.mp h2 with hm | ht
      · obtain ⟨ext, hext, rfl⟩ := List.mem_map.mp hm
        exact List.Sublist.cons₂ x (ih ext hext)
      · exact List.Sublist.cons x (ih C (List.mem_of_mem_tail ht))

/-- Every subsequence is visited by the DFS enumeration. -/
theorem sublist_mem_dfsSubseqs {α : Type} {C l : List α}
    (h : C.Sublist l) : C ∈ dfsSubseqs l := by
  induction h with
  | slnil => rw [dfsSubseqs]; exact List.mem_singleton.mpr rfl
  | @cons l₁ l₂ a h ih =>
    rw [dfsSubseqs]
    by_cases hC : l₁ = []
    · rw [hC]; exact List.mem_cons_self _ _
    · refine List.mem_cons_of_mem _ (List.mem_append_right _ ?_)
      have h2 : l₁ ∈ [] :: (dfsSubseqs l₂).tail := dfsSubseqs_head l₂ ▸ ih
      rcases List.mem_cons.mp h2 with h3 | h3
      · exact absurd h3 hC
      · exact h3
  | cons₂ a h ih =>
    rw [dfsSubseqs]
    exact List.mem_cons_of_mem _
      (List.mem_append_left _ (List.mem_map.mpr ⟨_, ih, rfl⟩))

/-- Extending the path by one chosen element shifts the match predicate. -/
theorem sumMatches_cons (t : ℚ) (path : List ℚ) (x : ℚ) :
    (sumMatches t path) ∘ (fun ext => x :: ext) = sumMatches t (path ++ [x]) := by
  funext ext
  simp only [Function.comp, sumMatches, List.append_assoc, List.singleton_append]

/-- The empty extension matches exactly when the current path's sum already
equals the target. -/
theorem sumMatches_nil (t : ℚ) (path : List ℚ) :
    sumMatches t path [] = decide (sumList ratOps path = t) := by
  simp [sumMatches]

/-- Central lemma: on non-negative inputs the pruned backtracking search
returns precisely the first combination, in DFS visit order, whose sum is
exactly the target.  (The pruning step is sound here because extensions can
only increase the sum.) -/
theorem btIE_ratOps_eq_dfsFind (t : ℚ) :
    ∀ (rest path : List ℚ), (∀ x ∈ rest, 0 ≤ x) →
      btIE ratOps t path rest =
        ((dfsSubseqs rest).find? (sumMatches t path)).map
          (fun ext => path ++ ext) := by
  intro rest
  induction rest with
  | nil =>
    intro path hnn
    rw [btIE, dfsSubseqs]
    by_cases h1 : sumList ratOps path = t
    · rw [if_pos (by simp [ratOps_beq, h1])]
      rw [List.find?_cons_of_pos _ (by simp [sumMatches_nil, h1])]
      simp
    · rw [if_neg (by simp [ratOps_beq, h1])]
      rw [List.find?_cons_of_neg _ (by simp [sumMatches_nil, h1])]
      simp only [List.find?_nil, Option.map_none']
      split <;> rfl
  | cons x xs ih =>
    intro path hnn
    have hx : (0 : ℚ) ≤ x := hnn x (List.mem_cons_self x xs)
    have hxs : ∀ y ∈ xs, (0 : ℚ) ≤ y := fun y hy => hnn y (List.mem_cons_of_mem x hy)
    rw [btIE, dfsSubseqs]
    by_cases h1 : sumList ratOps path = t
    · rw [if_pos (by simp [ratOps_beq, h1])]
      rw [List.find?_cons_of_pos _ (by simp [sumMatches_nil, h1])]
      simp
    · rw [if_neg (by simp [ratOps_beq, h1])]
      by_cases h2 : |t| < sumList ratOps path
      · rw [if_pos (by simp [ratOps_bgt, ratOps_abs, h2])]
        have hnone : List.find? (sumMatches t path)
            ([] :: ((dfsSubseqs xs).map (fun ext => x :: ext) ++
              (dfsSubseqs xs).tail)) = none := by
          rw [List.find?_eq_none]
          intro ext hext
          have hsub : ext.Sublist (x :: xs) :=
            mem_dfsSubseqs_sublist (x :: xs) ext (by rw [dfsSubseqs]; exact hext)
          have hextnn : ∀ y ∈ ext, (0 : ℚ) ≤ y := fun y hy => hnn y (hsub.subset hy)
          have hge : (0 : ℚ) ≤ ext.sum := List.sum_nonneg hextnn
          simp only [sumMatches, decide_eq_true_eq, sumList_ratOps,
            List.sum_append]
          have ht : t ≤ |t| := le_abs_self t
          rw [sumList_ratOps] at h2
          intro hcontra
          nlinarith
        rw [hnone]
        rfl
      · rw [if_neg (by simp [ratOps_bgt, ratOps_abs, h2])]
        rw [List.find?_cons_of_neg _ (by simp [sumMatches_nil, h1])]
        rw [List.find?_append, List.find?_map, sumMatches_cons]
        have hskip : (dfsSubseqs xs).find? (sumMatches t path) =
            ((dfsSubseqs xs).tail).find? (sumMatches t path) := by
          conv_lhs => rw [dfsSubseqs_head xs]
          rw [List.find?_cons_of_neg _ (by simp [sumMatches_nil, h1])]
        cases hInc : (dfsSubseqs xs).find? (sumMatches t (path ++ [x])) with
        | some ext0 =>
          have hb := ih (path ++ [x]) hxs
          rw [hInc] at hb
          rw [hb]
          simp [List.append_assoc]
        | none =>
          have hb := ih (path ++ [x]) hxs
          rw [hInc] at hb
          rw [hb]
          have hs := ih path hxs
          rw [hskip] at hs
          simpa using hs

/-- Any fuel of at least `rest.length + 1` frames is enough for the fueled
search: the recursion never nests deeper than one frame per remaining
element, plus the current frame. -/
theorem btIEFuel_enough {α : Type} (F : FloatOps α) (t : α) :
    ∀ (rest : List α) (path : List α) (fuel : Nat),
      rest.length + 1 ≤ fuel →
      btIEFuel F t fuel path rest = some (btIE F t path rest) := by
  intro rest
  induction rest with
  | nil =>
    intro path fuel hfuel
    obtain ⟨f, rfl⟩ : ∃ f, fuel = f + 1 := ⟨fuel - 1, by omega⟩
    rw [btIEFuel, btIE]
    cases F.beq (sumList F path) t with
    | true => simp
    | false =>
      cases F.bgt (sumList F path) (F.abs t) with
      | true => simp
      | false => simp
  | cons x xs ih =>
    intro path fuel hfuel
    obtain ⟨f, rfl⟩ : ∃ f, fuel = f + 1 := ⟨fuel - 1, by omega⟩
    rw [btIEFuel, btIE]
    cases F.beq (sumList F path) t with
    | true => simp
    | false =>
      cases F.bgt (sumList F path) (F.abs t) with
      | true => simp
      | false =>
        simp only [Bool.false_eq_true, if_false]
        have hlen : xs.length + 1 ≤ f := by
          simp only [List.length_cons] at hfuel
          omega
        rw [ih (path ++ [x]) f hlen]
        cases btIE F t (path ++ [x]) xs with
        | some r => rfl
        | none => exact ih path (f + 1) (by omega)

/-- When no value at all passes the equality test against the target (as
for a NaN target in IEEE arithmetic), the search can never record a result. -/
theorem btIE_none_of_no_match {α : Type} (F : FloatOps α) (t : α)
    (hbeq : ∀ s, F.beq s t = false)
    (hbgt : ∀ s, F.bgt s (F.abs t) = false) :
    ∀ (rest path : List α), btIE F t path rest = none := by
  intro rest
  induction rest with
  | nil =>
    intro path
    rw [btIE, if_neg (by simp [hbeq]), if_neg (by simp [hbgt])]
  | cons x xs ih =>
    intro path
    rw [btIE, if_neg (by simp [hbeq]), if_neg (by simp [hbgt]), ih (path ++ [x]),
      ih path]

/-- After the header has been skipped, the reader loop appends exactly the
successfully parsed first tokens of the remaining lines. -/
theorem readLoop_after_header {β : Type} (parse : String → Option β) :
    ∀ (rest : List String) (acc : List β),
      readLoop parse false acc rest =
        acc ++ rest.filterMap (fun line => (firstToken line).bind parse) := by
  intro rest
  induction rest with
  | nil => intro acc; simp [readLoop]
  | cons line rest ih =>
    intro acc
    rw [readLoop, if_neg (by simp)]
    split
    · rename_i n hp
      rw [ih (acc ++ [n])]
      simp [List.filterMap_cons, hp]
    · rename_i hp
      rw [ih acc]
      simp [List.filterMap_cons, hp]

/-- Rows indexed by `range l.length` and read through `l[i]?` are just a map
over `l`. -/
theorem range_map_get {α β : Type} (g : Option α → β) :
    ∀ l : List α,
      (List.range l.length).map (fun i => g l[i]?) =
        l.map (fun v => g (some v)) := by
  intro l
  induction l with
  | nil => rfl
  | cons a l ih =>
    rw [List.length_cons, List.range_succ_eq_map, List.map_cons, List.map_map]
    congr 1
    · simp
    · simp only [Function.comp_def, List.getElem?_cons_succ]
      exact ih

/-- C1: whenever `find_first_combination` returns a combination `C`, `C` is
a subsequence of the input taken at strictly increasing indices, and the
left-to-right sum of `C`'s elements passes the program's exact equality
test against the target.  Proved for every interpretation of the
floating-point operations. -/
theorem find_first_combination_sound {α : Type} (F : FloatOps α)
    (nums : List α) (t : α) (C : List α)
    (h : find_first_combination F nums t = some C) :
    (∃ idxs, SelectedAt nums idxs C) ∧ F.beq (sumList F C) t = true := by
  rw [find_first_combination_eq_btIE] at h
  obtain ⟨hb, ext, hC, hsub⟩ := btIE_some F t nums [] C h
  subst hC
  exact ⟨sublist_exists_selectedAt (by simpa using hsub), hb⟩

/-- Witness for C1 at input `[1, 2, 3]`, target `3`. -/
theorem find_first_combination_sound_witness :
    find_first_combination ratOps [1, 2, 3] 3 = some [1, 2] ∧
      ((∃ idxs, SelectedAt [(1 : ℚ), 2, 3] idxs [1, 2]) ∧
        ratOps.beq (sumList ratOps [1, 2]) 3 = true) := by
  have h : find_first_combination ratOps [1, 2, 3] 3 = some [1, 2] := by
    rw [find_first_combination_eq_btIE]
    norm_num [btIE, sumList, ratOps]
  exact ⟨h, find_first_combination_sound ratOps [1, 2, 3] 3 [1, 2] h⟩

/-- C2 (counterexample): on `[5, -2]` with target `3` the search returns
`none` even though the whole input is a strictly-increasing-index
subsequence summing exactly to `3` — the pruning rule discards the branch
after pushing `5`.  This refutes the claimed `none` ↔ no-solution
equivalence. -/
theorem find_first_none_misses_negative_solution :
    find_first_combination ratOps [5, -2] 3 = none ∧
      SelectedAt [(5 : ℚ), -2] [0, 1] [5, -2] ∧
      sumList ratOps [5, -2] = 3 := by
  refine ⟨?_, ⟨?_, ?_⟩, ?_⟩
  · rw [find_first_combination_eq_btIE]
    norm_num [btIE, sumList, ratOps]
  · norm_num [List.pairwise_cons]
  · exact List.Forall₂.cons rfl (List.Forall₂.cons rfl List.Forall₂.nil)
  · rw [sumList_ratOps]
    norm_num

/-- C2 (amended): when every input element is non-negative — the regime in
which the source's pruning rule is sound — `find_first_combination` returns
`none` exactly when no strictly-increasing-index subsequence sums to the
target.  (Without that restriction only the right-to-left direction holds;
see the counterexample.) -/
theorem find_first_none_iff_no_subsequence_of_nonneg (nums : List ℚ) (t : ℚ)
    (hnn : ∀ x ∈ nums, 0 ≤ x) :
    (find_first_combination ratOps nums t = none ↔
      ∀ idxs C, SelectedAt nums idxs C → sumList ratOps C ≠ t) := by
  rw [find_first_combination_eq_btIE, btIE_ratOps_eq_dfsFind t nums [] hnn]
  constructor
  · intro h idxs C hsel hsum
    have hmap : (dfsSubseqs nums).find? (sumMatches t []) = none := by
      cases hfind : (dfsSubseqs nums).find? (sumMatches t []) with
      | none => rfl
      | some ext => rw [hfind] at h; simp at h
    have hmem : C ∈ dfsSubseqs nums :=
      sublist_mem_dfsSubseqs (selectedAt_sublist nums idxs C hsel)
    have hfalse := List.find?_eq_none.mp hmap C hmem
    apply hfalse
    simp [sumMatches, hsum]
  · intro h
    cases hfind : (dfsSubseqs nums).find? (sumMatches t []) with
    | none => rfl
    | some ext =>
      have hmem := List.mem_of_find?_eq_some hfind
      have hpred := List.find?_some hfind
      obtain ⟨idxs, hsel⟩ := sublist_exists_selectedAt
        (mem_dfsSubseqs_sublist nums ext hmem)
      exact absurd (by simpa [sumMatches] using hpred) (h idxs ext hsel)

/-- Witness for the amended C2 at the specification's no-solution example
`[2, 4, 6]`, target `5`. -/
theorem find_first_none_iff_no_subsequence_of_nonneg_witness :
    find_first_combination ratOps [2, 4, 6] 5 = none ↔
      ∀ idxs C, SelectedAt [(2 : ℚ), 4, 6] idxs C → sumList ratOps C ≠ 5 :=
  find_first_none_iff_no_subsequence_of_nonneg [2, 4, 6] 5 (by norm_num)

/-- C3 (counterexample): on `[5, -2, 3]` with target `3` the search returns
`[3]` (indices `[2]`), yet `[5, -2]` (indices `[0, 1]`, lexicographically
smaller, and first in DFS visit order) also sums to `3`: the pruning rule
skipped it.  So the returned combination is neither the lexicographically
smallest solution nor the DFS-first one. -/
theorem find_first_not_dfs_first_with_negatives :
    find_first_combination ratOps [5, -2, 3] 3 = some [3] ∧
      (dfsSubseqs [(5 : ℚ), -2, 3]).find? (sumMatches 3 []) = some [5, -2] ∧
      ([5, -2] : List ℚ) ≠ [3] ∧
      SelectedAt [(5 : ℚ), -2, 3] [0, 1] [5, -2] ∧
      sumList ratOps [5, -2] = 3 ∧
      SelectedAt [(5 : ℚ), -2, 3] [2] [3] ∧
      List.Lex (fun i j => i < j) [0, 1] [2] := by
  refine ⟨?_, ?_, ?_, ⟨?_, ?_⟩, ?_, ⟨?_, ?_⟩, ?_⟩
  · rw [find_first_combination_eq_btIE]
    norm_num [btIE, sumList, ratOps]
  · norm_num [dfsSubseqs, sumMatches, sumList, ratOps, List.find?]
  · norm_num
  · norm_num [List.pairwise_cons]
  · exact List.Forall₂.cons rfl (List.Forall₂.cons rfl List.Forall₂.nil)
  · rw [sumList_ratOps]
    norm_num
  · norm_num [List.pairwise_cons]
  · exact List.Forall₂.cons rfl List.Forall₂.nil
  · exact List.Lex.rel (by norm_num)

/-- C3 (amended): when every input element is non-negative, a returned
combination is exactly the first one, in the order of the index-ordered
depth-first enumeration of all subsets, whose sum equals the target. -/
theorem find_first_eq_dfs_first_of_nonneg (nums : List ℚ) (t : ℚ)
    (C : List ℚ) (hnn : ∀ x ∈ nums, 0 ≤ x)
    (h : find_first_combination ratOps nums t = some C) :
    (dfsSubseqs nums).find? (sumMatches t []) = some C := by
  rw [find_first_combination_eq_btIE, btIE_ratOps_eq_dfsFind t nums [] hnn] at h
  cases hfind : (dfsSubseqs nums).find? (sumMatches t []) with
  | none => rw [hfind] at h; simp at h
  | some ext =>
    rw [hfind] at h
    simp only [Option.map_some', List.nil_append] at h
    exact h

/-- Witness for the amended C3 at input `[1, 2, 3]`, target `3`. -/
theorem find_first_eq_dfs_first_of_nonneg_witness :
    (dfsSubseqs [(1 : ℚ), 2, 3]).find? (sumMatches 3 []) = some [1, 2] :=
  find_first_eq_dfs_first_of_nonneg [1, 2, 3] 3 [1, 2] (by norm_num)
    (by rw [find_first_combination_eq_btIE]; norm_num [btIE, sumList, ratOps])

/-- C4: a target that the empty sum already matches (in particular target
`0`, since the empty fold yields `zero` and `0.0 == 0.0`) makes the search
return the empty combination immediately, for every input sequence. -/
theorem find_first_zero_target {α : Type} (F : FloatOps α) (nums : List α)
    (t : α) (h : F.beq F.zero t = true) :
    find_first_combination F nums t = some [] := by
  rw [find_first_combination_eq_btIE]
  have h' : F.beq (sumList F []) t = true := h
  cases nums with
  | nil => rw [btIE, if_pos h']
  | cons x xs => rw [btIE, if_pos h']

/-- Witness for C4 at input `[1, 2]`, target `0`. -/
theorem find_first_zero_target_witness :
    ratOps.beq ratOps.zero 0 = true ∧
      find_first_combination ratOps [1, 2] 0 = some [] :=
  ⟨by simp [ratOps_beq, ratOps_zero], find_first_zero_target ratOps [1, 2] 0
    (by simp [ratOps_beq, ratOps_zero])⟩

/-- C5: on input `[1, 2, 3]` with target `3` the search returns `[1, 2]`
(the combination at indices `\x7b0, 1\x7d`), not `[3]`. -/
theorem find_first_example_one_two :
    find_first_combination ratOps [1, 2, 3] 3 = some [1, 2] := by
  rw [find_first_combination_eq_btIE]
  norm_num [btIE, sumList, ratOps]

/-- C6: the reader discards the first line unconditionally and, for every
later line, appends the parse of its first whitespace-delimited token
exactly when parsing succeeds, skipping other lines silently; on the
specification's example file the result is `[10, 5]`. -/
theorem read_numbers_from_file_spec :
    (∀ (parse : String → Option ℚ) (lines : List String),
        read_numbers_from_file parse lines =
          (lines.drop 1).filterMap fun line => (firstToken line).bind parse) ∧
      read_numbers_from_file parseIntQ ["value", "10 apples", "abc", "5"] =
        [10, 5] := by
  constructor
  · intro parse lines
    cases lines with
    | nil => rfl
    | cons l ls =>
      rw [read_numbers_from_file, readLoop, if_pos rfl,
        readLoop_after_header parse ls []]
      simp
  · rfl

/-- C7 (the code at the claimed behaviour's failing input): with two
combinations whose first is shorter than the second, the writer emits only
one row — the length of the *first* combination — so the second
combination's element `3` never appears, contradicting the claimed
"rows up to the longest combination" shape. -/
theorem write_combinations_to_csv_first_length_bug (fmt : ℚ → String) :
    write_combinations_to_csv fmt [[1], [2, 3]] = [[fmt 1, fmt 2]] := by
  rfl

/-- C8: for a single combination of length `k` the writer emits exactly `k`
rows of one field each, the `i`-th row holding the rendering of the `i`-th
element in selection order. -/
theorem write_combinations_to_csv_single {α : Type} (fmt : α → String)
    (C : List α) :
    write_combinations_to_csv fmt [C] = C.map fun v => [fmt v] :=
  @range_map_get α (List String)
    (fun o => [match o with | some v => fmt v | none => ""]) C

/-- C9: the recursion terminates with depth bounded by the input length:
any fuel of at least `nums.length + 1` frames (the root frame plus one
frame per element, since every recursive call strictly advances the
cursor) already computes `find_first_combination`. -/
theorem backtrack_depth_bound {α : Type} (F : FloatOps α) (nums : List α)
    (t : α) (fuel : Nat) (hfuel : nums.length + 1 ≤ fuel) :
    btIEFuel F t fuel [] nums = some (find_first_combination F nums t) := by
  rw [find_first_combination_eq_btIE]
  exact btIEFuel_enough F t nums [] fuel hfuel

/-- Witness for C9 at input `[1, 2]`, target `3`, fuel `3`. -/
theorem backtrack_depth_bound_witness :
    [(1 : ℚ), 2].length + 1 ≤ 3 ∧
      btIEFuel ratOps 3 3 [] [1, 2] =
        some (find_first_combination ratOps [1, 2] 3) :=
  ⟨by norm_num, backtrack_depth_bound ratOps [1, 2] 3 3 (by norm_num)⟩

/-- C10: when no value compares equal to the target and nothing compares
greater than the target's absolute value — exactly the behaviour of IEEE
comparisons against a NaN target — the search runs to exhaustion without
recording a result and returns `none`, for every input. -/
theorem find_first_nan_target_none {α : Type} (F : FloatOps α)
    (nums : List α) (t : α)
    (hbeq : ∀ s, F.beq s t = false)
    (hbgt : ∀ s, F.bgt s (F.abs t) = false) :
    find_first_combination F nums t = none := by
  rw [find_first_combination_eq_btIE]
  exact btIE_none_of_no_match F t hbeq hbgt nums []

/-- Witness for C10 in the NaN-extended model, input `[1, 2]`, target NaN. -/
theorem find_first_nan_target_none_witness :
    find_first_combination nanOps [some 1, some 2] none = none :=
  find_first_nan_target_none nanOps [some 1, some 2] none
    (fun s => by cases s <;> rfl) (fun s => by cases s <;> rfl)
